import Mathlib

/-!
Verification of `src/assets/scriptMusique.py` (artist-catalog enrichment script).

Strings are modelled as `List Char` (`PyStr`).  Python's `str.lower` is full
Unicode; the script only ever inspects ASCII letters and the French accented
letters listed in its own regex, so `pyLowerChar` lowers exactly those.
`re.sub`/`re.split` are embedded as the deterministic left-to-right,
non-overlapping scans that the script's concrete patterns perform.
-/

set_option maxHeartbeats 1000000

abbrev PyStr := List Char

/-- Python whitespace for `str.strip()` (ASCII part, which is all the script meets). -/
def isPySpace (c : Char) : Bool :=
  c == ' ' || c == '\t' || c == '\n' || c == '\r' || c == '\x0b' || c == '\x0c'

/-- `str.strip()`: drop whitespace from both ends. -/
def pyStrip (l : PyStr) : PyStr :=
  ((l.dropWhile isPySpace).reverse.dropWhile isPySpace).reverse

/-- `str.lower()`, restricted to ASCII plus the accented letters the script inspects. -/
def pyLowerChar (c : Char) : Char :=
  if c = 'É' then 'é' else if c = 'È' then 'è' else if c = 'À' then 'à'
  else if c = 'Ù' then 'ù' else if c = 'Ç' then 'ç' else if c = 'Î' then 'î'
  else if c = 'Ï' then 'ï' else if c = 'Ô' then 'ô' else if c = 'Ê' then 'ê'
  else if c = 'Â' then 'â' else c.toLower

def pyLower (l : PyStr) : PyStr := l.map pyLowerChar

/-- `s.startswith(p)` on list-strings (exact case). -/
def startsWithL : PyStr → PyStr → Bool
  | _, [] => true
  | [], _ :: _ => false
  | c :: cs, d :: ds => c == d && startsWithL cs ds

/-- Case-insensitive match of a (lower-case) pattern at the head of a string. -/
def startsWithCI : PyStr → PyStr → Bool
  | _, [] => true
  | [], _ :: _ => false
  | c :: cs, d :: ds => c.toLower == d && startsWithCI cs ds

/-- `w in n` (Python substring test). -/
def containsSub (hay w : PyStr) : Bool :=
  match hay with
  | [] => w.isEmpty
  | _ :: t => startsWithL hay w || containsSub t w

/-- `s.endswith(p)` on list-strings. -/
def endsWithL (l suf : PyStr) : Bool := startsWithL l.reverse suf.reverse

/-! ## Name Normalizer (`clean_name`)

`re.sub(r"\(feat[^\)]*\)", "", name, flags=re.I)` followed by
`re.sub(r"\[.*?\]", "", name)` and `.strip()`.  Both substitutions are single
left-to-right passes over the string removing each non-overlapping match. -/

/-- Index of the first `)` in the string (the extent of greedy `[^\)]*` + `\)`). -/
def findParen : PyStr → Option Nat
  | [] => none
  | c :: cs => if c == ')' then some 0 else (findParen cs).map (· + 1)

/-- After an opening `(`: does `feat[^\)]*\)` (case-insensitive) match here?
Returns the number of characters consumed after the `(`. -/
def matchFeat : PyStr → Option Nat
  | f :: e :: a :: t :: rest =>
    if f.toLower == 'f' && e.toLower == 'e' && a.toLower == 'a' && t.toLower == 't' then
      (findParen rest).map (fun m => 4 + m + 1)
    else none
  | _ => none

/-- Single pass of `re.sub(r"\(feat[^\)]*\)", "", ·)`; the `Nat` argument is the
number of characters still being skipped as part of an already-matched group. -/
def subFeatGo : PyStr → Nat → PyStr
  | [], _ => []
  | _ :: cs, k + 1 => subFeatGo cs k
  | c :: cs, 0 =>
    if c = '(' then
      match matchFeat cs with
      | some k => subFeatGo cs k
      | none => c :: subFeatGo cs 0
    else c :: subFeatGo cs 0

def subFeat (l : PyStr) : PyStr := subFeatGo l 0

/-- Index of the first `]` reachable without crossing a newline
(`.` in `\[.*?\]` does not match `\n`). -/
def findClose : PyStr → Option Nat
  | [] => none
  | c :: cs =>
    if c == ']' then some 0
    else if c == '\n' then none
    else (findClose cs).map (· + 1)

/-- Single pass of `re.sub(r"\[.*?\]", "", ·)`. -/
def subBrGo : PyStr → Nat → PyStr
  | [], _ => []
  | _ :: cs, k + 1 => subBrGo cs k
  | c :: cs, 0 =>
    if c = '[' then
      match findClose cs with
      | some k => subBrGo cs (k + 1)
      | none => c :: subBrGo cs 0
    else c :: subBrGo cs 0

def subBr (l : PyStr) : PyStr := subBrGo l 0

/-- `clean_name`: strip `(feat …)` groups, strip `[…]` groups, trim whitespace. -/
def clean_name (name : PyStr) : PyStr := pyStrip (subBr (subFeat name))

/-! ## Splitter (`split_artists`)

`re.split(r"[;,/]| feat\.| ft\. |&| and ", raw, flags=re.I)`, then each
fragment is cleaned and empty fragments are dropped. -/

/-- Length of the separator matching at the head of `l`, trying the regex
alternatives in their order. -/
def matchSep (l : PyStr) : Option Nat :=
  match l with
  | [] => none
  | c :: _ =>
    if c == ';' || c == ',' || c == '/' then some 1
    else if startsWithCI l [' ', 'f', 'e', 'a', 't', '.'] then some 6
    else if startsWithCI l [' ', 'f', 't', '.', ' '] then some 5
    else if c == '&' then some 1
    else if startsWithCI l [' ', 'a', 'n', 'd', ' '] then some 5
    else none

/-- `re.split` scan: the `Nat` is the count of separator characters still being
skipped, `acc` the current fragment (reversed). -/
def splitLoop : PyStr → Nat → PyStr → List PyStr
  | [], _, acc => [acc.reverse]
  | _ :: cs, k + 1, acc => splitLoop cs k acc
  | c :: cs, 0, acc =>
    match matchSep (c :: cs) with
    | some k => acc.reverse :: splitLoop cs (k - 1) []
    | none => splitLoop cs 0 (c :: acc)

def splitSeps (raw : PyStr) : List PyStr := splitLoop raw 0 []

/-- The per-fragment cleaning done inside the `split_artists` loop:
`p = clean_name(p).strip()`. -/
def cleanFrag (p : PyStr) : PyStr := pyStrip (clean_name p)

/-- `split_artists(raw)`.  The argument is `Option PyStr` so that a missing
(`None`) cell value is covered by the same `if not raw` guard as the empty
string. -/
def split_artists : Option PyStr → List PyStr
  | none => []
  | some raw =>
    if raw.isEmpty then []
    else (splitSeps raw).foldl (fun out p =>
      let q := cleanFrag p
      if q.isEmpty then out else out ++ [q]) []

/-! ## Region Classifier (`guess_region`) -/

/-- `REGION_HINTS`, an insertion-ordered dict in the source. -/
def REGION_HINTS : List (PyStr × List PyStr) :=
  [(['f', 'r'],
    [['n','e','k','f','e','u'], ['d','a','m','s','o'], ['l','a','y','l','o','w'],
     ['f','r','e','e','z','e',' ','c','o','r','l','e','o','n','e'],
     ['v','a','l','d'], ['p','n','l'], ['n','i','n','h','o'], ['g','a','z','o'],
     ['a','l','p','h','a',' ','w','a','n','n'], ['b','o','o','b','a'],
     ['j','u','l'], ['s','c','h']]),
   (['u', 'k'],
    [['c','e','n','t','r','a','l',' ','c','e','e'], ['d','a','v','e'],
     ['s','t','o','r','m','z','y'], ['a','j',' ','t','r','a','c','e','y'],
     ['s','k','e','p','t','a'], ['h','e','a','d','i','e',' ','o','n','e'],
     ['a','r','r','d','e','e'], ['u','n','k','n','o','w','n',' ','t'],
     ['d','i','g','g','a',' ','d']]),
   (['u', 's'],
    [['k','e','n','d','r','i','c','k',' ','l','a','m','a','r'],
     ['t','r','a','v','i','s',' ','s','c','o','t','t'],
     ['k','a','n','y','e',' ','w','e','s','t'], ['d','r','a','k','e'],
     ['j','.',' ','c','o','l','e'], ['2','1',' ','s','a','v','a','g','e'],
     ['f','u','t','u','r','e'], ['l','i','l',' ','b','a','b','y'],
     ['p','l','a','y','b','o','i',' ','c','a','r','t','i'],
     ['y','o','u','n','g',' ','t','h','u','g']])]

/-- The character class of `re.search(r"[éèàùçîïôêâ]", n)`. -/
def accentChars : List Char := ['é', 'è', 'à', 'ù', 'ç', 'î', 'ï', 'ô', 'ê', 'â']

/-- The `for reg, words in REGION_HINTS.items()` loop. -/
def regionLoop : List (PyStr × List PyStr) → PyStr → Option PyStr
  | [], _ => none
  | (reg, words) :: rest, n =>
    if words.any (fun w => containsSub n w) then some reg else regionLoop rest n

def guess_region (name : PyStr) : PyStr :=
  let n := pyLower name
  match regionLoop REGION_HINTS n with
  | some r => r
  | none => if n.any (fun c => accentChars.contains c) then ['f', 'r'] else ['o','t','h','e','r']

/-! ## URL normalization (`normalize_image_url`) -/

def imageExts : List PyStr :=
  [['.','j','p','g'], ['.','j','p','e','g'], ['.','p','n','g'], ['.','g','i','f'],
   ['.','w','e','b','p']]

def httpColonSlashes : PyStr := ['h','t','t','p',':','/','/']
def httpsColonSlashes : PyStr := ['h','t','t','p','s',':','/','/']

def normalize_image_url (u : PyStr) : PyStr :=
  if u.isEmpty then []
  else
    let u1 := u.takeWhile (fun c => c != '?')
    let u2 := if startsWithL u1 ['/', '/'] then ['h','t','t','p','s',':'] ++ u1 else u1
    let u3 := if startsWithL u2 ['/'] then
        (['h','t','t','p','s',':','/','/'] ++ "duckduckgo.com".toList) ++ u2
      else u2
    if startsWithL u3 httpColonSlashes || startsWithL u3 httpsColonSlashes then
      -- advisory extension check: both branches of the source return `u`
      if imageExts.any (fun ext => endsWithL (pyLower u3) ext) then u3 else u3
    else []

/-! ## JSON model and the Image Resolver extraction (`ddg_search_image`)

The network/`json.loads` part of `ddg_search_image` is wrapped in
`try/except` and yields `""` on failure; everything after the parse runs
unprotected, so a shape the code does not guard against (calling `.get` on a
non-dict, `.strip()` on a non-string) raises an uncaught exception.  The
extraction is therefore embedded in `Except Unit`, `.error ()` standing for a
raised exception. -/

inductive Json where
  | null
  | bool (v : Bool)
  | int (v : Int)
  | str (v : PyStr)
  | arr (xs : List Json)
  | obj (kvs : List (String × Json))

/-- Python truthiness of a JSON value. -/
def truthy : Json → Bool
  | .null => false
  | .bool v => v
  | .int v => v != 0
  | .str v => !v.isEmpty
  | .arr xs => !xs.isEmpty
  | .obj kvs => !kvs.isEmpty

/-- `a or b`. -/
def pyOr (a b : Json) : Json := if truthy a then a else b

/-- `dict.get(k)` on a known dict (absent key ↦ `None`). -/
def pyGetObj : List (String × Json) → String → Json
  | [], _ => .null
  | (k', v) :: rest, k => if k' = k then v else pyGetObj rest k

/-- `x.get(k)`: raises `AttributeError` when `x` is not a dict. -/
def jDictGet : Json → String → Except Unit Json
  | .obj kvs, k => .ok (pyGetObj kvs k)
  | _, _ => .error ()

/-- `if img and isinstance(img, str) and img.strip():` — the guarded top-level
image candidate (no exception possible in this branch). -/
def strCandidate : Json → Option PyStr
  | .str v => if truthy (.str v) && !(pyStrip v).isEmpty then some v else none
  | _ => none

/-- `url_icon = icon.get("URL") or icon.get("url"); if url_icon and url_icon.strip():`
Applied to the value of `item.get("Icon") or {}`: raises when that value is a
truthy non-dict, or when the chosen URL value is truthy but not a string. -/
def iconUrl (iconField : Json) : Except Unit (Option PyStr) :=
  match pyOr iconField (.obj []) with
  | .obj kvs =>
    let u := pyOr (pyGetObj kvs "URL") (pyGetObj kvs "url")
    if truthy u then
      match u with
      | .str v => if !(pyStrip v).isEmpty then .ok (some v) else .ok none
      | _ => .error ()
    else .ok none
  | _ => .error ()

/-- Scan of a nested `Topics` list. -/
def scanSubs : List Json → Except Unit (Option PyStr)
  | [] => .ok none
  | sub :: rest =>
    match sub with
    | .obj kvs => do
      let r ← iconUrl (pyGetObj kvs "Icon")
      match r with
      | some v => .ok (some v)
      | none => scanSubs rest
    | _ => scanSubs rest

/-- Scan of the `RelatedTopics` list: per item, the direct icon first, then a
nested `Topics` list (only when it is a non-empty list). -/
def scanItems : List Json → Except Unit (Option PyStr)
  | [] => .ok none
  | item :: rest =>
    match item with
    | .obj kvs => do
      let r ← iconUrl (pyGetObj kvs "Icon")
      match r with
      | some v => .ok (some v)
      | none =>
        match pyGetObj kvs "Topics" with
        | .arr subs =>
          if subs.isEmpty then scanItems rest
          else do
            let r' ← scanSubs subs
            match r' with
            | some v => .ok (some v)
            | none => scanItems rest
        | _ => scanItems rest
    | _ => scanItems rest

/-- Step 3 of the extraction (`AbstractImage`), reached when the earlier steps
found nothing. -/
def ddgBranch3 (j : Json) : Except Unit PyStr := do
  let abs0 ← jDictGet j "AbstractImage"
  if truthy abs0 then
    match abs0 with
    | .str v => .ok (normalize_image_url v)
    | _ => .error ()
  else .ok []

/-- Step 2 of the extraction (`RelatedTopics` scan).  The source normalizes a
found icon URL at its single `return` inside the loop; here the scan yields the
raw URL and the one exit path normalizes it — the same single normalization. -/
def ddgBranch2 (j : Json) : Except Unit PyStr := do
  let rt0 ← jDictGet j "RelatedTopics"
  let r ← (match pyOr rt0 (.arr []) with
           | .arr items => scanItems items
           | _ => .ok none)
  match r with
  | some v => .ok (normalize_image_url v)
  | none => ddgBranch3 j

/-- The post-parse extraction of `ddg_search_image`, acting on the parsed body. -/
def ddgExtract (j : Json) : Except Unit PyStr := do
  let i1 ← jDictGet j "Image"
  let i2 ← jDictGet j "image"
  match strCandidate (pyOr i1 i2) with
  | some v => .ok (normalize_image_url v)
  | none => ddgBranch2 j

/-- `ddg_search_image`: `none` models a network or JSON-parse failure, which the
`except` clause turns into `""`. -/
def ddg_search_image (fetched : Option Json) : Except Unit PyStr :=
  match fetched with
  | none => .ok []
  | some j => ddgExtract j

/-! ## Catalog Builder (`read_csv` and `main`) -/

/-- A `csv.DictReader` row: association list from column names to values, a
value being possibly `None`. -/
abbrev Row := List (String × Option PyStr)

/-- `row.get(k)`: `none` both for an absent column and a `None` value. -/
def rowGet (row : Row) (k : String) : Option PyStr :=
  match row with
  | [] => none
  | (k', v) :: rest => if k' = k then v else rowGet rest k

/-- Python `x or y` on optional strings (both `None` and `""` are falsy). -/
def pyOrS (a : Option PyStr) (b : PyStr) : PyStr :=
  match a with
  | some s => if s.isEmpty then b else s
  | none => b

/-- `row.get("Artist Name(s)") or row.get("artist") or row.get("Artist") or ""`. -/
def rawOfRow (row : Row) : PyStr :=
  pyOrS (rowGet row "Artist Name(s)") (pyOrS (rowGet row "artist")
    (pyOrS (rowGet row "Artist") []))

def artistsOfRow (row : Row) : List PyStr := split_artists (some (rawOfRow row))

/-- The body of the dedup loop: `key = p.lower(); if key not in seen: …`. -/
def dedupStep (st : List PyStr × List PyStr) (p : PyStr) : List PyStr × List PyStr :=
  let key := pyLower p
  if key ∈ st.1 then st else (key :: st.1, st.2 ++ [p])

/-- The list-building part of `read_csv` (file access aside): rows are scanned
in order, each row's artists deduplicated case-insensitively against the
global `seen` set. -/
def read_csv_artists (rows : List Row) : List PyStr :=
  (rows.foldl (fun st row => (artistsOfRow row).foldl dedupStep st) ([], [])).2

def PLACEHOLDER : PyStr := "https://via.placeholder.com/400x400.png?text=Artist".toList

def RATINGS : List PyStr := ["★★★★★".toList, "★★★★½".toList, "★★★★".toList, "★★★½".toList]

/-- `%XX` hex digits (upper case, as `urllib.parse.quote` emits). -/
def hexDigit (n : Nat) : Char :=
  if n < 10 then Char.ofNat ('0'.toNat + n) else Char.ofNat ('A'.toNat + n - 10)

/-- `urllib.parse.quote` with its default `safe='/'`. -/
def quoteChar (c : Char) : PyStr :=
  if ('a' ≤ c && c ≤ 'z') || ('A' ≤ c && c ≤ 'Z') || ('0' ≤ c && c ≤ '9')
      || c == '_' || c == '.' || c == '-' || c == '~' || c == '/' then [c]
  else (String.utf8EncodeChar c).flatMap
    (fun b => ['%', hexDigit (b.toNat / 16), hexDigit (b.toNat % 16)])

def pyQuote (l : PyStr) : PyStr := l.flatMap quoteChar

structure ArtistRecord where
  name : PyStr
  url : PyStr
  region : PyStr
  image : PyStr
  rating : PyStr

/-- One iteration of the `main` loop, given the resolver's result `img` and the
randomly chosen `rating`: empty resolver result is replaced by `PLACEHOLDER`. -/
def mkEntry (artist img rating : PyStr) : ArtistRecord :=
  let img1 := if img.isEmpty then [] else img
  let img2 := if img1.isEmpty then PLACEHOLDER else img1
  { name := artist
    url := "https://open.spotify.com/search/artist%3A".toList ++ pyQuote artist
    region := guess_region artist
    image := img2
    rating := rating }

/-! ## Specification-side predicates and reference functions

These follow the spec's / claims' words, to be compared with the definitions
embedded from the source. -/

/-- "contains a `(feat …)`-style parenthetical (case-insensitive)": some
position carries a match of `\(feat[^\)]*\)`. -/
def hasFeatB : PyStr → Bool
  | [] => false
  | c :: cs => (c == '(' && (matchFeat cs).isSome) || hasFeatB cs

/-- "contains a bracketed `[…]` substring": some position carries a match of
`\[.*?\]` (no newline between the brackets, as `.` does not cross lines). -/
def hasBrB : PyStr → Bool
  | [] => false
  | c :: cs => (c == '[' && (findClose cs).isSome) || hasBrB cs

/-- "has no leading or trailing whitespace". -/
def noEdgeSpace (l : PyStr) : Prop :=
  (∀ c, l.head? = some c → isPySpace c = false) ∧
  (∀ c, l.getLast? = some c → isPySpace c = false)

/-- The French accented vowels (the claim's words: `ç` is not a vowel). -/
def frenchAccentedVowels : List Char := ['é', 'è', 'à', 'ù', 'î', 'ï', 'ô', 'ê', 'â']

def frWords : List PyStr :=
  [['n','e','k','f','e','u'], ['d','a','m','s','o'], ['l','a','y','l','o','w'],
   ['f','r','e','e','z','e',' ','c','o','r','l','e','o','n','e'],
   ['v','a','l','d'], ['p','n','l'], ['n','i','n','h','o'], ['g','a','z','o'],
   ['a','l','p','h','a',' ','w','a','n','n'], ['b','o','o','b','a'],
   ['j','u','l'], ['s','c','h']]

def ukWords : List PyStr :=
  [['c','e','n','t','r','a','l',' ','c','e','e'], ['d','a','v','e'],
   ['s','t','o','r','m','z','y'], ['a','j',' ','t','r','a','c','e','y'],
   ['s','k','e','p','t','a'], ['h','e','a','d','i','e',' ','o','n','e'],
   ['a','r','r','d','e','e'], ['u','n','k','n','o','w','n',' ','t'],
   ['d','i','g','g','a',' ','d']]

def usWords : List PyStr :=
  [['k','e','n','d','r','i','c','k',' ','l','a','m','a','r'],
   ['t','r','a','v','i','s',' ','s','c','o','t','t'],
   ['k','a','n','y','e',' ','w','e','s','t'], ['d','r','a','k','e'],
   ['j','.',' ','c','o','l','e'], ['2','1',' ','s','a','v','a','g','e'],
   ['f','u','t','u','r','e'], ['l','i','l',' ','b','a','b','y'],
   ['p','l','a','y','b','o','i',' ','c','a','r','t','i'],
   ['y','o','u','n','g',' ','t','h','u','g']]

/-- The classifier as the claim's amended words describe it: the fixed priority
chain fr, uk, us over the hard-coded keyword lists, then the accent-class
fallback (the class of the source regex: accented vowels plus `ç`). -/
def regionSpec (name : PyStr) : PyStr :=
  let n := pyLower name
  if frWords.any (fun w => containsSub n w) then ['f', 'r']
  else if ukWords.any (fun w => containsSub n w) then ['u', 'k']
  else if usWords.any (fun w => containsSub n w) then ['u', 's']
  else if n.any (fun c => accentChars.contains c) then ['f', 'r']
  else ['o', 't', 'h', 'e', 'r']

/-- The classifier as the claim literally states it: the same chain, but the
fallback fires exactly when the name contains a French accented VOWEL. -/
def regionClaimLiteral (name : PyStr) : PyStr :=
  let n := pyLower name
  if frWords.any (fun w => containsSub n w) then ['f', 'r']
  else if ukWords.any (fun w => containsSub n w) then ['u', 'k']
  else if usWords.any (fun w => containsSub n w) then ['u', 's']
  else if n.any (fun c => frenchAccentedVowels.contains c) then ['f', 'r']
  else ['o', 't', 'h', 'e', 'r']

/-- Reference dedup: keep the first occurrence of each case-insensitive key, in
first-seen order, with the first-seen casing. -/
def firstSeenCI : List PyStr → List PyStr
  | [] => []
  | p :: ps => p :: firstSeenCI (ps.filter (fun q => pyLower q != pyLower p))
  termination_by l => l.length
  decreasing_by
    simp only [List.length_cons]
    exact Nat.lt_succ_of_le (List.length_filter_le _ _)

/-- The non-blank icon URL carried by the value of an `Icon` field (after the
`or {}` default), per the amended claim. -/
def urlOfIcon (iconField : Json) : Option PyStr :=
  match pyOr iconField (.obj []) with
  | .obj kvs =>
    match pyOr (pyGetObj kvs "URL") (pyGetObj kvs "url") with
    | .str v => if (pyStrip v).isEmpty then none else some v
    | _ => none
  | _ => none

def subCands (sub : Json) : List PyStr :=
  match sub with
  | .obj kvs => (urlOfIcon (pyGetObj kvs "Icon")).toList
  | _ => []

/-- Icon-URL candidates contributed by one related-topics entry, in scan order:
the direct icon first, then the nested `Topics` list (when a non-empty list). -/
def entryCands (item : Json) : List PyStr :=
  match item with
  | .obj kvs =>
    (urlOfIcon (pyGetObj kvs "Icon")).toList ++
    (match pyGetObj kvs "Topics" with
     | .arr subs => if subs.isEmpty then [] else subs.flatMap subCands
     | _ => [])
  | _ => []

/-- The non-blank top-level image-field candidate (amended claim). -/
def topCand (kvs : List (String × Json)) : Option PyStr :=
  match pyOr (pyGetObj kvs "Image") (pyGetObj kvs "image") with
  | .str v => if (pyStrip v).isEmpty then none else some v
  | _ => none

/-- The related-topics list actually scanned (`j.get("RelatedTopics") or []`,
only when a list). -/
def rtItems (kvs : List (String × Json)) : List Json :=
  match pyOr (pyGetObj kvs "RelatedTopics") (.arr []) with
  | .arr items => items
  | _ => []

/-- The `AbstractImage` candidate: any truthy string. -/
def absCand (kvs : List (String × Json)) : Option PyStr :=
  match pyGetObj kvs "AbstractImage" with
  | .str v => if v.isEmpty then none else some v
  | _ => none

/-- All image candidates of a body, in the claim's priority order. -/
def candList (j : Json) : List PyStr :=
  match j with
  | .obj kvs =>
    (topCand kvs).toList ++ (rtItems kvs).flatMap entryCands ++ (absCand kvs).toList
  | _ => []

/-- The first candidate (empty string when none). -/
def firstCandidate (j : Json) : PyStr := (candList j).headD []

/-- A truthy field value the unguarded code can call `.strip()`/normalize on
without raising: a string (or anything falsy). -/
def urlFieldOK (u : Json) : Bool :=
  !truthy u ||
  (match u with
   | .str _ => true
   | _ => false)

/-- A truthy `Icon` value the code can call `.get` on: a dict whose chosen URL
value is itself safe (or anything falsy). -/
def iconValOK (v : Json) : Bool :=
  !truthy v ||
  (match v with
   | .obj kvs => urlFieldOK (pyOr (pyGetObj kvs "URL") (pyGetObj kvs "url"))
   | _ => false)

def subOK (sub : Json) : Bool :=
  match sub with
  | .obj kvs => iconValOK (pyGetObj kvs "Icon")
  | _ => true

def itemOK (item : Json) : Bool :=
  match item with
  | .obj kvs =>
    iconValOK (pyGetObj kvs "Icon") &&
    (match pyGetObj kvs "Topics" with
     | .arr subs => subs.all subOK
     | _ => true)
  | _ => true

/-- Bodies on which the unguarded extraction code raises no exception: a dict
whose scanned icons and `AbstractImage` have the types the code assumes. -/
def WellShaped (j : Json) : Bool :=
  match j with
  | .obj kvs => (rtItems kvs).all itemOK && urlFieldOK (pyGetObj kvs "AbstractImage")
  | _ => false

/-- C8's literal reading of an icon candidate: non-empty AS A RAW string (no
whitespace trimming). -/
def urlOfIconRaw (iconField : Json) : Option PyStr :=
  match pyOr iconField (.obj []) with
  | .obj kvs =>
    match pyOr (pyGetObj kvs "URL") (pyGetObj kvs "url") with
    | .str v => if v.isEmpty then none else some v
    | _ => none
  | _ => none

def subCandsRaw (sub : Json) : List PyStr :=
  match sub with
  | .obj kvs => (urlOfIconRaw (pyGetObj kvs "Icon")).toList
  | _ => []

def entryCandsRaw (item : Json) : List PyStr :=
  match item with
  | .obj kvs =>
    (urlOfIconRaw (pyGetObj kvs "Icon")).toList ++
    (match pyGetObj kvs "Topics" with
     | .arr subs => if subs.isEmpty then [] else subs.flatMap subCandsRaw
     | _ => [])
  | _ => []

/-- C8's literal reading of the scan: return the normalized form of the first
icon URL that is non-empty as a raw string. -/
def c8LiteralScan (items : List Json) : PyStr :=
  normalize_image_url ((items.flatMap entryCandsRaw).headD [])

/-- C5's literal reading of the top-level image-field step: the field is taken
whenever present (as a non-empty string), with no blank check. -/
def topCandLiteral (kvs : List (String × Json)) : Option PyStr :=
  match pyOr (pyGetObj kvs "Image") (pyGetObj kvs "image") with
  | .str v => if v.isEmpty then none else some v
  | _ => none

def candListLiteral (j : Json) : List PyStr :=
  match j with
  | .obj kvs =>
    (topCandLiteral kvs).toList ++ (rtItems kvs).flatMap entryCandsRaw ++
      (absCand kvs).toList
  | _ => []

/-- C5's literal reading of the whole extraction: normalize the first candidate
of the literal priority list, the empty string when there is none. -/
def specExtractLiteralC5 (j : Json) : PyStr :=
  normalize_image_url ((candListLiteral j).headD [])

/-- Proof-side reformulation of the dedup loop: the artists still to be added
given an already-seen key set. -/
def firstSeenFrom (seen : List PyStr) : List PyStr → List PyStr
  | [] => []
  | p :: ps =>
    if pyLower p ∈ seen then firstSeenFrom seen ps
    else p :: firstSeenFrom (pyLower p :: seen) ps

/-! ## Helper lemmas -/

theorem takeWhile_all (p : Char → Bool) (l : PyStr) (h : ∀ c ∈ l, p c = true) :
    l.takeWhile p = l := by
  induction l with
  | nil => rfl
  | cons c cs ih =>
    simp only [List.takeWhile_cons, h c (List.mem_cons_self c cs), if_true]
    exact congrArg (c :: ·) (ih fun x hx => h x (List.mem_cons_of_mem c hx))

theorem noQ_append {a b : PyStr} (ha : ∀ c ∈ a, (c != '?') = true)
    (hb : ∀ c ∈ b, (c != '?') = true) : ∀ c ∈ a ++ b, (c != '?') = true := by
  intro c hc
  rcases List.mem_append.mp hc with h | h
  exacts [ha c h, hb c h]

theorem mem_takeWhile_pred {p : Char → Bool} {l : PyStr} {c : Char}
    (h : c ∈ l.takeWhile p) : p c = true := by
  induction l with
  | nil => simp [List.takeWhile] at h
  | cons a t ih =>
    rw [List.takeWhile_cons] at h
    by_cases hp : p a = true
    · rw [if_pos hp] at h
      rcases List.mem_cons.mp h with rfl | h'
      · exact hp
      · exact ih h'
    · rw [if_neg hp] at h
      simp at h

theorem startsWithL_cons {r : PyStr} {c : Char} {p : PyStr}
    (h : startsWithL r (c :: p) = true) : ∃ t, r = c :: t := by
  cases r with
  | nil => simp [startsWithL] at h
  | cons a t =>
    have h' : (a == c) = true ∧ startsWithL t p = true := by
      simpa [startsWithL, Bool.and_eq_true] using h
    exact ⟨t, by rw [eq_of_beq h'.1]⟩

/-! ## C9 -/

/-- C9: for an empty or missing (falsy) raw cell value, the Splitter returns
the empty list, so such rows contribute no artists. -/
theorem split_artists_falsy_empty :
    split_artists none = [] ∧ split_artists (some []) = [] := ⟨rfl, rfl⟩

/-! ## C10 -/

/-- C10: when a row has none of the three candidate artist columns (or only
missing values under them), the reader's fallback chain produces the empty
string and the row contributes no artists; every function involved is total,
so no error is raised. -/
theorem read_missing_columns_silent (row : Row)
    (h1 : rowGet row "Artist Name(s)" = none)
    (h2 : rowGet row "artist" = none)
    (h3 : rowGet row "Artist" = none) :
    rawOfRow row = [] ∧ artistsOfRow row = [] := by
  have hr : rawOfRow row = [] := by
    unfold rawOfRow
    rw [h1, h2, h3]
    rfl
  refine ⟨hr, ?_⟩
  unfold artistsOfRow
  rw [hr]
  rfl

theorem read_missing_columns_silent_witness :
    rawOfRow [("Track", some ['t'])] = [] ∧ artistsOfRow [("Track", some ['t'])] = [] :=
  read_missing_columns_silent [("Track", some ['t'])] (by decide) (by decide) (by decide)

/-! ## C2 -/

/-- C2: whatever string the resolver delivers (and it delivers the empty string
on any network/parse failure, modelled by `fetched = none`), the builder's
fallback makes the record's `image` field non-empty, substituting the fixed
placeholder exactly when the resolver returned empty. -/
theorem resolver_empty_gets_placeholder (artist rating img : PyStr)
    (fetched : Option Json) (h : ddg_search_image fetched = .ok img) :
    (mkEntry artist img rating).image ≠ [] ∧
    (img = [] → (mkEntry artist img rating).image = PLACEHOLDER) ∧
    (fetched = none → img = []) := by
  have him : (mkEntry artist img rating).image = if img.isEmpty then PLACEHOLDER else img := by
    unfold mkEntry
    by_cases he : img.isEmpty
    · simp [he]
    · simp [he]
  refine ⟨?_, ?_, ?_⟩
  · rw [him]
    by_cases he : img.isEmpty
    · rw [if_pos he]; decide
    · rw [if_neg he]
      intro hnil
      exact he (by simp [hnil])
  · intro hnil
    rw [him, if_pos (by simp [hnil])]
  · intro hf
    subst hf
    simpa [ddg_search_image] using h.symm

theorem resolver_empty_gets_placeholder_witness :
    (mkEntry ['x'] [] ['r']).image = PLACEHOLDER ∧ (mkEntry ['x'] [] ['r']).image ≠ [] := by
  have h := resolver_empty_gets_placeholder ['x'] ['r'] [] none rfl
  exact ⟨h.2.1 rfl, h.1⟩

/-! ## C3 -/

/-- C3 (amended): the classifier lower-cases the name, tries the regions in the
fixed order fr, uk, us returning the first whose hard-coded keyword list has a
substring match, and otherwise returns `fr` exactly when the name contains a
character of the regex class `[éèàùçîïôêâ]` — the French accented vowels plus
the (non-vowel) `ç` — and `other` otherwise. -/
theorem guess_region_priority (name : PyStr) : guess_region name = regionSpec name := by
  have hloop : regionLoop REGION_HINTS (pyLower name) =
      (if frWords.any (fun w => containsSub (pyLower name) w) then some ['f', 'r']
       else if ukWords.any (fun w => containsSub (pyLower name) w) then some ['u', 'k']
       else if usWords.any (fun w => containsSub (pyLower name) w) then some ['u', 's']
       else none) := rfl
  by_cases h1 : frWords.any (fun w => containsSub (pyLower name) w) = true
  · simp [guess_region, regionSpec, hloop, h1]
  · by_cases h2 : ukWords.any (fun w => containsSub (pyLower name) w) = true
    · simp [guess_region, regionSpec, hloop, h1, h2]
    · by_cases h3 : usWords.any (fun w => containsSub (pyLower name) w) = true
      · simp [guess_region, regionSpec, hloop, h1, h2, h3]
      · simp [guess_region, regionSpec, hloop, h1, h2, h3]

/-- C3 counterexample: `"garçon"` matches no keyword and contains no French
accented vowel, yet the code classifies it `fr` (the regex class contains the
consonant `ç`), where the claim as stated demands `other`. -/
theorem guess_region_cedilla_counterexample :
    guess_region "garçon".toList = ['f', 'r'] ∧
    regionClaimLiteral "garçon".toList = ['o', 't', 'h', 'e', 'r'] ∧
    guess_region "garçon".toList ≠ regionClaimLiteral "garçon".toList := by
  refine ⟨by decide, by decide, by decide⟩

/-! ## C6 -/

theorem split_foldl_eq_filter (l : List PyStr) (out : List PyStr) :
    l.foldl (fun out p =>
        let q := cleanFrag p
        if q.isEmpty then out else out ++ [q]) out
      = out ++ (l.map cleanFrag).filter (fun q => !q.isEmpty) := by
  induction l generalizing out with
  | nil => simp
  | cons p ps ih =>
    show List.foldl _ (if (cleanFrag p).isEmpty then out else out ++ [cleanFrag p]) ps = _
    by_cases hq : (cleanFrag p).isEmpty = true
    · rw [if_pos hq, ih, List.map_cons, List.filter_cons]
      simp [hq]
    · rw [if_neg hq, ih, List.map_cons, List.filter_cons]
      simp [hq, List.append_assoc]

/-- C6: the Splitter is exactly "split on the separator alternatives, clean
each fragment, drop fragments empty after cleaning", with no deduplication;
when every fragment survives cleaning (the claim's well-formed case with `k`
non-empty fragments) it returns exactly as many cleaned non-empty strings as
there are fragments. -/
theorem split_artists_split_clean_drop (raw : PyStr) :
    split_artists (some raw) = ((splitSeps raw).map cleanFrag).filter (fun q => !q.isEmpty) ∧
    ((∀ p ∈ splitSeps raw, (cleanFrag p).isEmpty = false) →
      (split_artists (some raw)).length = (splitSeps raw).length) := by
  have heq : split_artists (some raw)
      = ((splitSeps raw).map cleanFrag).filter (fun q => !q.isEmpty) := by
    by_cases h0 : raw.isEmpty
    · have hr : raw = [] := by simpa using h0
      subst hr
      rfl
    · show (if raw.isEmpty then [] else _) = _
      rw [if_neg h0]
      simpa using split_foldl_eq_filter (splitSeps raw) []
  refine ⟨heq, fun hall => ?_⟩
  rw [heq]
  have : ((splitSeps raw).map cleanFrag).filter (fun q => !q.isEmpty)
      = (splitSeps raw).map cleanFrag := by
    apply List.filter_eq_self.mpr
    intro q hq
    rcases List.mem_map.mp hq with ⟨p, hp, rfl⟩
    simp [hall p hp]
  rw [this, List.length_map]

theorem split_artists_split_clean_drop_witness :
    (split_artists (some "Nekfeu, Laylow".toList)).length
      = (splitSeps "Nekfeu, Laylow".toList).length :=
  (split_artists_split_clean_drop "Nekfeu, Laylow".toList).2 (by decide)

/-! ## C7 -/

theorem normalize_noQ_or_nil (u : PyStr) :
    normalize_image_url u = [] ∨
    ((startsWithL (normalize_image_url u) httpColonSlashes = true ∨
       startsWithL (normalize_image_url u) httpsColonSlashes = true) ∧
      ∀ c ∈ normalize_image_url u, (c != '?') = true) := by
  unfold normalize_image_url
  by_cases h0 : u.isEmpty
  · simp [h0]
  · rw [if_neg h0]
    have hq1 : ∀ c ∈ u.takeWhile (fun c => c != '?'), (c != '?') = true := by
      intro c hc
      exact @mem_takeWhile_pred (fun c => c != '?') u c hc
    set u1 := u.takeWhile (fun c => c != '?') with hu1
    set u2 := if startsWithL u1 ['/', '/'] then ['h','t','t','p','s',':'] ++ u1 else u1 with hu2
    have hq2 : ∀ c ∈ u2, (c != '?') = true := by
      rw [hu2]
      by_cases hs : startsWithL u1 ['/', '/']
      · rw [if_pos hs]
        exact noQ_append (by decide) hq1
      · rw [if_neg hs]
        exact hq1
    set u3 := if startsWithL u2 ['/'] then
        (['h','t','t','p','s',':','/','/'] ++ "duckduckgo.com".toList) ++ u2 else u2 with hu3
    have hq3 : ∀ c ∈ u3, (c != '?') = true := by
      rw [hu3]
      by_cases hs : startsWithL u2 ['/']
      · rw [if_pos hs]
        exact noQ_append (by decide) hq2
      · rw [if_neg hs]
        exact hq2
    by_cases hh : startsWithL u3 httpColonSlashes || startsWithL u3 httpsColonSlashes
    · right
      rw [if_pos hh]
      have hh' := Bool.or_eq_true _ _ ▸ hh
      constructor
      · rcases hh' with h | h
        · left; simpa using h
        · right; simpa using h
      · intro c hc
        apply hq3
        by_cases he : imageExts.any (fun ext => endsWithL (pyLower u3) ext)
        · simpa [he] using hc
        · simpa [he] using hc
    · left
      rw [if_neg hh]

/-- C7: `normalize_image_url` is idempotent. -/
theorem normalize_image_url_idempotent (u : PyStr) :
    normalize_image_url (normalize_image_url u) = normalize_image_url u := by
  rcases normalize_noQ_or_nil u with hnil | ⟨hh, hq⟩
  · rw [hnil]
    rfl
  · set r := normalize_image_url u with hr
    have hhead : ∃ t, r = 'h' :: t := by
      rcases hh with h | h
      · exact startsWithL_cons h
      · exact startsWithL_cons h
    rcases hhead with ⟨t, hht⟩
    have hne : r.isEmpty = false := by rw [hht]; rfl
    have htw : r.takeWhile (fun c => c != '?') = r := takeWhile_all _ _ hq
    show (if r.isEmpty then [] else _) = r
    rw [hne]
    simp only [Bool.false_eq_true, if_false, htw]
    have hs2 : startsWithL r ['/', '/'] = false := by
      rw [hht]
      simp [startsWithL]
    have hs1 : startsWithL r ['/'] = false := by
      rw [hht]
      simp [startsWithL]
    rw [hs2]
    simp only [Bool.false_eq_true, if_false, hs1]
    have hh' : (startsWithL r httpColonSlashes || startsWithL r httpsColonSlashes) = true := by
      rcases hh with h | h <;> simp [h]
    rw [hh']
    simp only [if_true]
    by_cases he : imageExts.any (fun ext => endsWithL (pyLower r) ext)
    · rw [if_pos he]
    · rw [if_neg he]

/-! ## C4 -/

theorem findClose_map_cons {c : Char} {cs : PyStr} (h1 : (c == ']') = false)
    (h2 : (c == '\n') = false) : findClose (c :: cs) = (findClose cs).map (· + 1) := by
  rw [findClose, if_neg (by simp [h1]), if_neg (by simp [h2])]

/-- If no `]` is reachable (before a newline) in `l`, the same holds after the
bracket-removal pass. -/
theorem subBrGo_findClose_none : ∀ l : PyStr, findClose l = none →
    findClose (subBrGo l 0) = none := by
  intro l
  induction l with
  | nil => intro _; rfl
  | cons c cs ih =>
    intro h
    by_cases h1 : (c == ']') = true
    · rw [findClose, if_pos h1] at h
      exact absurd h (by simp)
    · by_cases h2 : (c == '\n') = true
      · have hc : c = '\n' := by simpa using h2
        subst hc
        show findClose (if '\n' = '[' then _ else '\n' :: subBrGo cs 0) = none
        rw [if_neg (by decide)]
        rw [findClose, if_neg (by decide), if_pos (by decide)]
      · have h1' : (c == ']') = false := by simpa using h1
        have h2' : (c == '\n') = false := by simpa using h2
        rw [findClose_map_cons h1' h2'] at h
        have hcs : findClose cs = none := by
          rcases hfc : findClose cs with _ | k
          · rfl
          · rw [hfc] at h; simp at h
        by_cases h3 : c = '['
        · subst h3
          show findClose (if '[' = '[' then
              (match findClose cs with
               | some k => subBrGo cs (k + 1)
               | none => '[' :: subBrGo cs 0) else _) = none
          rw [if_pos rfl, hcs]
          rw [findClose_map_cons (by decide) (by decide), ih hcs]
          rfl
        · show findClose (if c = '[' then _ else c :: subBrGo cs 0) = none
          rw [if_neg h3]
          rw [findClose_map_cons h1' h2', ih hcs]
          rfl

/-- The bracket-removal pass leaves no `[…]` match anywhere in its output. -/
theorem subBrGo_no_br : ∀ (l : PyStr) (k : Nat), hasBrB (subBrGo l k) = false := by
  intro l
  induction l with
  | nil => intro k; rfl
  | cons c cs ih =>
    intro k
    cases k with
    | succ k' =>
      show hasBrB (subBrGo cs k') = false
      exact ih k'
    | zero =>
      by_cases hc : c = '['
      · subst hc
        rcases hfc : findClose cs with _ | m
        · show hasBrB (if '[' = '[' then
              (match findClose cs with
               | some k => subBrGo cs (k + 1)
               | none => '[' :: subBrGo cs 0) else _) = false
          rw [if_pos rfl, hfc]
          rw [hasBrB, subBrGo_findClose_none cs hfc, ih 0]
          rfl
        · show hasBrB (if '[' = '[' then
              (match findClose cs with
               | some k => subBrGo cs (k + 1)
               | none => '[' :: subBrGo cs 0) else _) = false
          rw [if_pos rfl, hfc]
          exact ih (m + 1)
      · show hasBrB (if c = '[' then _ else c :: subBrGo cs 0) = false
        rw [if_neg hc]
        rw [hasBrB, ih 0]
        simp [hc]

theorem middle_decomp (p : Char → Bool) (m : PyStr) :
    m = (m.reverse.dropWhile p).reverse ++ (m.reverse.takeWhile p).reverse := by
  rw [← List.reverse_append, List.takeWhile_append_dropWhile, List.reverse_reverse]

/-- `pyStrip l` is a contiguous middle piece of `l`. -/
theorem pyStrip_middle (l : PyStr) :
    l = l.takeWhile isPySpace ++
      (pyStrip l ++ ((l.dropWhile isPySpace).reverse.takeWhile isPySpace).reverse) := by
  conv_lhs => rw [← List.takeWhile_append_dropWhile (p := isPySpace) (l := l)]
  simp only [pyStrip]
  congr 1
  exact middle_decomp isPySpace (l.dropWhile isPySpace)

theorem findClose_append {t z : PyStr} {k : Nat} (h : findClose t = some k) :
    findClose (t ++ z) = some k := by
  induction t generalizing k with
  | nil => simp [findClose] at h
  | cons c cs ih =>
    by_cases h1 : (c == ']') = true
    · rw [findClose, if_pos h1] at h
      rw [List.cons_append, findClose, if_pos h1]
      exact h
    · by_cases h2 : (c == '\n') = true
      · rw [findClose, if_neg (by simp_all), if_pos h2] at h
        simp at h
      · have h1' : (c == ']') = false := by simpa using h1
        have h2' : (c == '\n') = false := by simpa using h2
        rw [findClose_map_cons h1' h2'] at h
        rcases hfc : findClose cs with _ | m
        · rw [hfc] at h; simp at h
        · rw [hfc] at h
          simp at h
          rw [List.cons_append, findClose_map_cons h1' h2', ih hfc]
          simpa using h

theorem hasBrB_append_right (a b : PyStr) (h : hasBrB b = true) :
    hasBrB (a ++ b) = true := by
  induction a with
  | nil => simpa using h
  | cons c cs ih =>
    rw [List.cons_append, hasBrB, ih]
    simp

theorem hasBrB_append_left (a b : PyStr) (h : hasBrB a = true) :
    hasBrB (a ++ b) = true := by
  induction a with
  | nil => simp [hasBrB] at h
  | cons c cs ih =>
    rw [hasBrB] at h
    rcases Bool.or_eq_true_iff.mp h with h' | h'
    · have hc : (c == '[') = true := (Bool.and_eq_true _ _ ▸ h').1
      have hfc : (findClose cs).isSome = true := (Bool.and_eq_true _ _ ▸ h').2
      rcases Option.isSome_iff_exists.mp hfc with ⟨m, hm⟩
      rw [List.cons_append, hasBrB, hc, findClose_append hm]
      simp
    · rw [List.cons_append, hasBrB, ih h']
      simp

theorem hasBrB_pyStrip (l : PyStr) (h : hasBrB l = false) : hasBrB (pyStrip l) = false := by
  by_contra hb
  have hb' : hasBrB (pyStrip l) = true := by
    rcases Bool.eq_false_or_eq_true (hasBrB (pyStrip l)) with h' | h'
    · exact h'
    · exact absurd h' hb
  have hl : hasBrB l = true := by
    have hmid := pyStrip_middle l
    have : hasBrB (l.takeWhile isPySpace ++
        (pyStrip l ++ ((l.dropWhile isPySpace).reverse.takeWhile isPySpace).reverse)) = true :=
      hasBrB_append_right _ _ (hasBrB_append_left _ _ hb')
    rw [← hmid] at this
    exact this
  rw [h] at hl
  exact Bool.false_ne_true hl

theorem dropWhile_head_not {p : Char → Bool} : ∀ {l : PyStr} {c : Char},
    (l.dropWhile p).head? = some c → p c = false := by
  intro l
  induction l with
  | nil => intro c h; simp [List.dropWhile] at h
  | cons a t ih =>
    intro c h
    rw [List.dropWhile_cons] at h
    by_cases hp : p a = true
    · rw [if_pos hp] at h
      exact ih h
    · rw [if_neg hp] at h
      have ha : a = c := by simpa using h
      subst ha
      simpa using hp

/-- The result of `str.strip()` has no whitespace at either end. -/
theorem pyStrip_noEdgeSpace (l : PyStr) : noEdgeSpace (pyStrip l) := by
  constructor
  · intro c hc
    rcases hps : pyStrip l with _ | ⟨c', t⟩
    · rw [hps] at hc
      simp at hc
    · rw [hps] at hc
      have hcc : c' = c := by simpa using hc
      subst hcc
      have hA : (l.dropWhile isPySpace).head? = some c' := by
        conv_lhs => rw [middle_decomp isPySpace (l.dropWhile isPySpace)]
        have hx : ((l.dropWhile isPySpace).reverse.dropWhile isPySpace).reverse = c' :: t := by
          rw [← hps]; rfl
        rw [hx]
        rfl
      exact dropWhile_head_not hA
  · intro c hc
    have hx : ((l.dropWhile isPySpace).reverse.dropWhile isPySpace).head? = some c := by
      rw [← List.getLast?_reverse]
      exact hc
    exact dropWhile_head_not hx

theorem mem_subFeatGo : ∀ (l : PyStr) (k : Nat) (x : Char), x ∈ subFeatGo l k → x ∈ l := by
  intro l
  induction l with
  | nil => intro k x h; simp [subFeatGo] at h
  | cons c cs ih =>
    intro k x h
    cases k with
    | succ k' => exact List.mem_cons_of_mem c (ih k' x h)
    | zero =>
      by_cases hc : c = '('
      · subst hc
        rcases hm : matchFeat cs with _ | m
        · have hred : subFeatGo ('(' :: cs) 0 = '(' :: subFeatGo cs 0 := by
            simp [subFeatGo, hm]
          rw [hred] at h
          rcases List.mem_cons.mp h with rfl | h''
          · exact List.mem_cons_self _ _
          · exact List.mem_cons_of_mem _ (ih 0 x h'')
        · have hred : subFeatGo ('(' :: cs) 0 = subFeatGo cs m := by
            simp [subFeatGo, hm]
          rw [hred] at h
          exact List.mem_cons_of_mem _ (ih m x h)
      · have hred : subFeatGo (c :: cs) 0 = c :: subFeatGo cs 0 := by
          simp [subFeatGo, hc]
        rw [hred] at h
        rcases List.mem_cons.mp h with rfl | h''
        · exact List.mem_cons_self _ _
        · exact List.mem_cons_of_mem _ (ih 0 x h'')

theorem mem_subBrGo : ∀ (l : PyStr) (k : Nat) (x : Char), x ∈ subBrGo l k → x ∈ l := by
  intro l
  induction l with
  | nil => intro k x h; simp [subBrGo] at h
  | cons c cs ih =>
    intro k x h
    cases k with
    | succ k' => exact List.mem_cons_of_mem c (ih k' x h)
    | zero =>
      by_cases hc : c = '['
      · subst hc
        rcases hm : findClose cs with _ | m
        · have hred : subBrGo ('[' :: cs) 0 = '[' :: subBrGo cs 0 := by
            simp [subBrGo, hm]
          rw [hred] at h
          rcases List.mem_cons.mp h with rfl | h''
          · exact List.mem_cons_self _ _
          · exact List.mem_cons_of_mem _ (ih 0 x h'')
        · have hred : subBrGo ('[' :: cs) 0 = subBrGo cs (m + 1) := by
            simp [subBrGo, hm]
          rw [hred] at h
          exact List.mem_cons_of_mem _ (ih (m + 1) x h)
      · have hred : subBrGo (c :: cs) 0 = c :: subBrGo cs 0 := by
          simp [subBrGo, hc]
        rw [hred] at h
        rcases List.mem_cons.mp h with rfl | h''
        · exact List.mem_cons_self _ _
        · exact List.mem_cons_of_mem _ (ih 0 x h'')

theorem mem_pyStrip {l : PyStr} {x : Char} (h : x ∈ pyStrip l) : x ∈ l := by
  rw [pyStrip_middle l]
  exact List.mem_append.mpr (Or.inr (List.mem_append.mpr (Or.inl h)))

theorem hasFeatB_no_paren {l : PyStr} (h : ∀ x ∈ l, x ≠ '(') : hasFeatB l = false := by
  induction l with
  | nil => rfl
  | cons c cs ih =>
    rw [hasFeatB]
    have hc : (c == '(') = false := by
      simpa using h c (List.mem_cons_self c cs)
    rw [hc, ih fun x hx => h x (List.mem_cons_of_mem c hx)]
    rfl

/-- C4 (amended): the cleaned name has no leading or trailing whitespace and no
bracketed `[…]` substring (brackets with no newline between them); and when the
input has no `(` at all, no `(feat …)` parenthetical either.  In general a
single-pass removal can splice the surrounding text into a NEW `(feat …)`
parenthetical which remains (see the counterexample). -/
theorem clean_name_cleaned (n : PyStr) :
    noEdgeSpace (clean_name n) ∧
    hasBrB (clean_name n) = false ∧
    ((∀ x ∈ n, x ≠ '(') → hasFeatB (clean_name n) = false) := by
  refine ⟨pyStrip_noEdgeSpace _, ?_, ?_⟩
  · exact hasBrB_pyStrip _ (subBrGo_no_br (subFeat n) 0)
  · intro hpar
    apply hasFeatB_no_paren
    intro x hx
    exact hpar x (mem_subFeatGo n 0 x (mem_subBrGo (subFeat n) 0 x (mem_pyStrip hx)))

theorem clean_name_cleaned_witness :
    (∀ x ∈ " Drake [Remix] ".toList, x ≠ '(') ∧
    hasFeatB (clean_name " Drake [Remix] ".toList) = false :=
  ⟨by decide, (clean_name_cleaned " Drake [Remix] ".toList).2.2 (by decide)⟩

/-- C4 counterexample: removing the bracket group `[x]` from `"(fe[x]at y)"`
splices the surrounding text into the parenthetical `"(feat y)"`, so the
cleaned output does contain a `(feat …)`-style parenthetical. -/
theorem clean_name_feat_counterexample :
    clean_name "(fe[x]at y)".toList = "(feat y)".toList ∧
    hasFeatB (clean_name "(fe[x]at y)".toList) = true := by
  exact ⟨by decide, by decide⟩

/-! ## C1 -/

theorem foldl_rows (rows : List Row) (st : List PyStr × List PyStr) :
    rows.foldl (fun st row => (artistsOfRow row).foldl dedupStep st) st
      = ((rows.map artistsOfRow).flatten).foldl dedupStep st := by
  induction rows generalizing st with
  | nil => rfl
  | cons r rs ih =>
    simp only [List.foldl_cons, List.map_cons, List.flatten_cons, List.foldl_append]
    exact ih _

theorem foldl_dedup (l : List PyStr) : ∀ seen acc,
    (l.foldl dedupStep (seen, acc)).2 = acc ++ firstSeenFrom seen l := by
  induction l with
  | nil =>
    intro seen acc
    simp [firstSeenFrom]
  | cons p ps ih =>
    intro seen acc
    rw [List.foldl_cons]
    by_cases hm : pyLower p ∈ seen
    · have hst : dedupStep (seen, acc) p = (seen, acc) := by
        simp [dedupStep, hm]
      rw [hst, ih]
      have hf : firstSeenFrom seen (p :: ps) = firstSeenFrom seen ps := by
        simp [firstSeenFrom, hm]
      rw [hf]
    · have hst : dedupStep (seen, acc) p = (pyLower p :: seen, acc ++ [p]) := by
        simp [dedupStep, hm]
      rw [hst, ih]
      have hf : firstSeenFrom seen (p :: ps) = p :: firstSeenFrom (pyLower p :: seen) ps := by
        simp [firstSeenFrom, hm]
      rw [hf, List.append_assoc]
      rfl

theorem filter_key_filter (ps : List PyStr) (p : PyStr) (seen : List PyStr) :
    (ps.filter (fun q => !decide (pyLower q ∈ seen))).filter
        (fun q => pyLower q != pyLower p)
      = ps.filter (fun q => !decide (pyLower q ∈ pyLower p :: seen)) := by
  induction ps with
  | nil => rfl
  | cons a as ih =>
    by_cases h1 : pyLower a ∈ seen
    · have e1 : (a :: as).filter (fun q => !decide (pyLower q ∈ seen))
          = as.filter (fun q => !decide (pyLower q ∈ seen)) := by
        simp [List.filter_cons, h1]
      have e3 : (a :: as).filter (fun q => !decide (pyLower q ∈ pyLower p :: seen))
          = as.filter (fun q => !decide (pyLower q ∈ pyLower p :: seen)) := by
        simp [List.filter_cons, List.mem_cons, h1]
      rw [e1, e3, ih]
    · by_cases h2 : pyLower a = pyLower p
      · have e1 : (a :: as).filter (fun q => !decide (pyLower q ∈ seen))
            = a :: as.filter (fun q => !decide (pyLower q ∈ seen)) := by
          simp [List.filter_cons, h1]
        have e2 : (a :: as.filter (fun q => !decide (pyLower q ∈ seen))).filter
              (fun q => pyLower q != pyLower p)
            = (as.filter (fun q => !decide (pyLower q ∈ seen))).filter
              (fun q => pyLower q != pyLower p) := by
          simp [List.filter_cons, h2]
        have e3 : (a :: as).filter (fun q => !decide (pyLower q ∈ pyLower p :: seen))
            = as.filter (fun q => !decide (pyLower q ∈ pyLower p :: seen)) := by
          simp [List.filter_cons, List.mem_cons, h2]
        rw [e1, e2, e3, ih]
      · have e1 : (a :: as).filter (fun q => !decide (pyLower q ∈ seen))
            = a :: as.filter (fun q => !decide (pyLower q ∈ seen)) := by
          simp [List.filter_cons, h1]
        have e2 : (a :: as.filter (fun q => !decide (pyLower q ∈ seen))).filter
              (fun q => pyLower q != pyLower p)
            = a :: (as.filter (fun q => !decide (pyLower q ∈ seen))).filter
              (fun q => pyLower q != pyLower p) := by
          simp [List.filter_cons, h2]
        have e3 : (a :: as).filter (fun q => !decide (pyLower q ∈ pyLower p :: seen))
            = a :: as.filter (fun q => !decide (pyLower q ∈ pyLower p :: seen)) := by
          simp [List.filter_cons, List.mem_cons, h1, h2]
        rw [e1, e2, e3, ih]

theorem firstSeenFrom_eq : ∀ (l : List PyStr) (seen : List PyStr),
    firstSeenFrom seen l = firstSeenCI (l.filter (fun p => !decide (pyLower p ∈ seen))) := by
  intro l
  induction l with
  | nil =>
    intro seen
    simp [firstSeenFrom, firstSeenCI]
  | cons p ps ih =>
    intro seen
    by_cases hm : pyLower p ∈ seen
    · have h1 : firstSeenFrom seen (p :: ps) = firstSeenFrom seen ps := by
        simp [firstSeenFrom, hm]
      rw [h1, ih]
      congr 1
      simp [List.filter_cons, hm]
    · have h1 : firstSeenFrom seen (p :: ps) = p :: firstSeenFrom (pyLower p :: seen) ps := by
        simp [firstSeenFrom, hm]
      have h2 : (p :: ps).filter (fun q => !decide (pyLower q ∈ seen))
          = p :: ps.filter (fun q => !decide (pyLower q ∈ seen)) := by
        simp [List.filter_cons, hm]
      have h3 : firstSeenCI (p :: ps.filter (fun q => !decide (pyLower q ∈ seen)))
          = p :: firstSeenCI ((ps.filter (fun q => !decide (pyLower q ∈ seen))).filter
              (fun q => pyLower q != pyLower p)) := by
        rw [firstSeenCI]
      rw [h1, ih, h2, h3, filter_key_filter]

theorem mem_firstSeenCI : ∀ (l : List PyStr) (x : PyStr), x ∈ firstSeenCI l → x ∈ l := by
  intro l
  induction l using firstSeenCI.induct with
  | case1 =>
    intro x h
    simp [firstSeenCI] at h
  | case2 p ps ih =>
    intro x h
    rw [firstSeenCI] at h
    rcases List.mem_cons.mp h with rfl | h'
    · exact List.mem_cons_self _ _
    · exact List.mem_cons_of_mem _ (List.mem_of_mem_filter (ih x h'))

theorem pairwise_firstSeenCI (l : List PyStr) :
    (firstSeenCI l).Pairwise (fun a b => pyLower a ≠ pyLower b) := by
  induction l using firstSeenCI.induct with
  | case1 => simp [firstSeenCI]
  | case2 p ps ih =>
    rw [firstSeenCI]
    refine List.Pairwise.cons ?_ ih
    intro b hb
    have hb' : b ∈ ps.filter (fun q => pyLower q != pyLower p) := mem_firstSeenCI _ _ hb
    have hcond := List.of_mem_filter hb'
    intro hEq
    rw [← hEq] at hcond
    simp at hcond

/-- C1: the accumulated artist list equals the reference first-seen,
case-insensitive deduplication of all split fragments in input-scan order
(so each case-insensitive group of duplicate fragments yields one entry, the
one with the first-seen casing, at its first-seen position), and its entries
have pairwise distinct lower-cased names. -/
theorem read_csv_unique_first_seen (rows : List Row) :
    read_csv_artists rows = firstSeenCI ((rows.map artistsOfRow).flatten) ∧
    (read_csv_artists rows).Pairwise (fun a b => pyLower a ≠ pyLower b) := by
  have key : read_csv_artists rows = firstSeenCI ((rows.map artistsOfRow).flatten) := by
    unfold read_csv_artists
    rw [foldl_rows, foldl_dedup, firstSeenFrom_eq]
    have hfilter : ((rows.map artistsOfRow).flatten).filter
        (fun p => !decide (pyLower p ∈ ([] : List PyStr))) = (rows.map artistsOfRow).flatten := by
      apply List.filter_eq_self.mpr
      intro a _
      simp
    rw [hfilter]
    rfl
  exact ⟨key, key ▸ pairwise_firstSeenCI _⟩

/-! ## C5 and C8: scan lemmas -/

theorem strCandidate_eq_topCand (kvs : List (String × Json)) :
    strCandidate (pyOr (pyGetObj kvs "Image") (pyGetObj kvs "image")) = topCand kvs := by
  rw [topCand]
  rcases pyOr (pyGetObj kvs "Image") (pyGetObj kvs "image") with _ | b | i | v | xs | kvs2
  · rfl
  · rfl
  · rfl
  · cases v with
    | nil => rfl
    | cons c cs =>
      by_cases hs : (pyStrip (c :: cs)).isEmpty
      · simp [strCandidate, truthy, hs]
      · simp [strCandidate, truthy, hs]
  · rfl
  · rfl

theorem iconUrl_ok (iconField : Json) (h : iconValOK iconField = true) :
    iconUrl iconField = .ok (urlOfIcon iconField) := by
  by_cases hf : truthy iconField = true
  · have hor : pyOr iconField (.obj []) = iconField := by simp [pyOr, hf]
    cases iconField with
    | obj kvs =>
      have hu : urlFieldOK (pyOr (pyGetObj kvs "URL") (pyGetObj kvs "url")) = true := by
        simpa [iconValOK, hf] using h
      simp only [iconUrl, urlOfIcon, hor]
      rcases hc : pyOr (pyGetObj kvs "URL") (pyGetObj kvs "url") with _ | b | i | v | xs | kvs2
      · simp [truthy]
      · rw [hc] at hu
        cases b
        · simp [truthy]
        · simp [urlFieldOK, truthy] at hu
      · rw [hc] at hu
        by_cases hi : i = 0
        · simp [truthy, hi]
        · simp [urlFieldOK, truthy, hi] at hu
      · cases v with
        | nil => simp [truthy, pyStrip]
        | cons c cs =>
          by_cases hs : (pyStrip (c :: cs)).isEmpty = true
          · simp [truthy, hs]
          · simp [truthy, hs]
      · rw [hc] at hu
        cases xs
        · simp [truthy]
        · simp [urlFieldOK, truthy] at hu
      · rw [hc] at hu
        cases kvs2
        · simp [truthy]
        · simp [urlFieldOK, truthy] at hu
    | null => simp [truthy] at hf
    | bool b => simp [iconValOK, hf] at h
    | int i => simp [iconValOK, hf] at h
    | str v => simp [iconValOK, hf] at h
    | arr xs => simp [iconValOK, hf] at h
  · have hor : pyOr iconField (.obj []) = .obj [] := by
      simp [pyOr, hf]
    simp only [iconUrl, urlOfIcon, hor]
    rfl

theorem except_bind_ok {α β : Type} (x : α) (f : α → Except Unit β) :
    (Except.ok x : Except Unit α) >>= f = f x := rfl

theorem scanSubs_ok (subs : List Json) (h : subs.all subOK = true) :
    scanSubs subs = .ok ((subs.flatMap subCands).head?) := by
  induction subs with
  | nil => rfl
  | cons sub rest ih =>
    rw [List.all_cons, Bool.and_eq_true] at h
    obtain ⟨hs, hr⟩ := h
    cases sub with
    | obj kvs =>
      have hic : iconValOK (pyGetObj kvs "Icon") = true := by
        simpa [subOK] using hs
      rcases hu : urlOfIcon (pyGetObj kvs "Icon") with _ | v
      · have hstep : scanSubs (Json.obj kvs :: rest) = scanSubs rest := by
          simp [scanSubs, iconUrl_ok _ hic, hu, except_bind_ok]
        have hcands : subCands (Json.obj kvs) = [] := by
          simp [subCands, hu]
        rw [hstep, ih hr, List.flatMap_cons, hcands]
        rfl
      · have hstep : scanSubs (Json.obj kvs :: rest) = .ok (some v) := by
          simp [scanSubs, iconUrl_ok _ hic, hu, except_bind_ok]
        have hcands : subCands (Json.obj kvs) = [v] := by
          simp [subCands, hu]
        rw [hstep, List.flatMap_cons, hcands]
        rfl
    | null => simpa [scanSubs, subCands, List.flatMap_cons] using ih hr
    | bool b => simpa [scanSubs, subCands, List.flatMap_cons] using ih hr
    | int i => simpa [scanSubs, subCands, List.flatMap_cons] using ih hr
    | str v => simpa [scanSubs, subCands, List.flatMap_cons] using ih hr
    | arr xs => simpa [scanSubs, subCands, List.flatMap_cons] using ih hr

theorem scanItems_ok (items : List Json) (h : items.all itemOK = true) :
    scanItems items = .ok ((items.flatMap entryCands).head?) := by
  induction items with
  | nil => rfl
  | cons item rest ih =>
    rw [List.all_cons, Bool.and_eq_true] at h
    obtain ⟨hi, hr⟩ := h
    cases item with
    | obj kvs =>
      rw [show itemOK (Json.obj kvs) = (iconValOK (pyGetObj kvs "Icon") &&
          (match pyGetObj kvs "Topics" with
           | .arr subs => subs.all subOK
           | _ => true)) from rfl, Bool.and_eq_true] at hi
      obtain ⟨hic, htop⟩ := hi
      rcases hu : urlOfIcon (pyGetObj kvs "Icon") with _ | v
      · rcases htt : pyGetObj kvs "Topics" with _ | b | i | v2 | subs | kvs2
        · have hstep : scanItems (Json.obj kvs :: rest) = scanItems rest := by
            simp [scanItems, iconUrl_ok _ hic, hu, htt, except_bind_ok]
          have hcands : entryCands (Json.obj kvs) = [] := by
            simp [entryCands, hu, htt]
          rw [hstep, ih hr, List.flatMap_cons, hcands]
          rfl
        · have hstep : scanItems (Json.obj kvs :: rest) = scanItems rest := by
            simp [scanItems, iconUrl_ok _ hic, hu, htt, except_bind_ok]
          have hcands : entryCands (Json.obj kvs) = [] := by
            simp [entryCands, hu, htt]
          rw [hstep, ih hr, List.flatMap_cons, hcands]
          rfl
        · have hstep : scanItems (Json.obj kvs :: rest) = scanItems rest := by
            simp [scanItems, iconUrl_ok _ hic, hu, htt, except_bind_ok]
          have hcands : entryCands (Json.obj kvs) = [] := by
            simp [entryCands, hu, htt]
          rw [hstep, ih hr, List.flatMap_cons, hcands]
          rfl
        · have hstep : scanItems (Json.obj kvs :: rest) = scanItems rest := by
            simp [scanItems, iconUrl_ok _ hic, hu, htt, except_bind_ok]
          have hcands : entryCands (Json.obj kvs) = [] := by
            simp [entryCands, hu, htt]
          rw [hstep, ih hr, List.flatMap_cons, hcands]
          rfl
        · have hsub : subs.all subOK = true := by
            rw [htt] at htop
            exact htop
          cases subs with
          | nil =>
            have hstep : scanItems (Json.obj kvs :: rest) = scanItems rest := by
              simp [scanItems, iconUrl_ok _ hic, hu, htt, except_bind_ok]
            have hcands : entryCands (Json.obj kvs) = [] := by
              simp [entryCands, hu, htt]
            rw [hstep, ih hr, List.flatMap_cons, hcands]
            rfl
          | cons s0 srest =>
            have hscan := scanSubs_ok (s0 :: srest) hsub
            rcases hh : ((s0 :: srest).flatMap subCands).head? with _ | v
            · have hflat : (s0 :: srest).flatMap subCands = [] := by
                rwa [← List.head?_eq_none_iff]
              rw [hh] at hscan
              have hstep : scanItems (Json.obj kvs :: rest) = scanItems rest := by
                simp [scanItems, iconUrl_ok _ hic, hu, htt, hscan, except_bind_ok]
              have hcands : entryCands (Json.obj kvs) = [] := by
                simp [entryCands, hu, htt, hflat]
              rw [hstep, ih hr, List.flatMap_cons, hcands]
              rfl
            · rw [hh] at hscan
              have hstep : scanItems (Json.obj kvs :: rest) = .ok (some v) := by
                simp [scanItems, iconUrl_ok _ hic, hu, htt, hscan, except_bind_ok]
              have hcands : entryCands (Json.obj kvs) = (s0 :: srest).flatMap subCands := by
                simp [entryCands, hu, htt]
              rw [hstep, List.flatMap_cons, hcands]
              rcases hflat : (s0 :: srest).flatMap subCands with _ | ⟨w, ws⟩
              · rw [hflat] at hh
                simp at hh
              · rw [hflat] at hh
                have hw : w = v := by simpa using hh
                subst hw
                rfl
        · have hstep : scanItems (Json.obj kvs :: rest) = scanItems rest := by
            simp [scanItems, iconUrl_ok _ hic, hu, htt, except_bind_ok]
          have hcands : entryCands (Json.obj kvs) = [] := by
            simp [entryCands, hu, htt]
          rw [hstep, ih hr, List.flatMap_cons, hcands]
          rfl
      · have hstep : scanItems (Json.obj kvs :: rest) = .ok (some v) := by
          simp [scanItems, iconUrl_ok _ hic, hu, except_bind_ok]
        have hcands : ∃ tl, entryCands (Json.obj kvs) = v :: tl := by
          refine ⟨(match pyGetObj kvs "Topics" with
                   | .arr subs => if subs.isEmpty then [] else subs.flatMap subCands
                   | _ => []), ?_⟩
          simp [entryCands, hu]
        obtain ⟨tl, hcands⟩ := hcands
        rw [hstep, List.flatMap_cons, hcands]
        rfl
    | null => simpa [scanItems, entryCands, List.flatMap_cons] using ih hr
    | bool b => simpa [scanItems, entryCands, List.flatMap_cons] using ih hr
    | int i => simpa [scanItems, entryCands, List.flatMap_cons] using ih hr
    | str v => simpa [scanItems, entryCands, List.flatMap_cons] using ih hr
    | arr xs => simpa [scanItems, entryCands, List.flatMap_cons] using ih hr

theorem normalize_nil : normalize_image_url [] = [] := rfl

theorem opt_toList_headD (o : Option PyStr) : (o.toList).headD [] = o.getD [] := by
  cases o <;> rfl

theorem ddgBranch3_ok (kvs : List (String × Json))
    (h : urlFieldOK (pyGetObj kvs "AbstractImage") = true) :
    ddgBranch3 (Json.obj kvs) = .ok (normalize_image_url ((absCand kvs).getD [])) := by
  rcases hc : pyGetObj kvs "AbstractImage" with _ | b | i | v | xs | kvs2
  · simp [ddgBranch3, jDictGet, hc, except_bind_ok, truthy, absCand, normalize_nil]
  · rw [hc] at h
    cases b
    · simp [ddgBranch3, jDictGet, hc, except_bind_ok, truthy, absCand, normalize_nil]
    · simp [urlFieldOK, truthy] at h
  · rw [hc] at h
    by_cases hi : i = 0
    · simp [ddgBranch3, jDictGet, hc, except_bind_ok, truthy, hi, absCand, normalize_nil]
    · simp [urlFieldOK, truthy, hi] at h
  · cases v with
    | nil => simp [ddgBranch3, jDictGet, hc, except_bind_ok, truthy, absCand, normalize_nil]
    | cons c cs => simp [ddgBranch3, jDictGet, hc, except_bind_ok, truthy, absCand]
  · rw [hc] at h
    cases xs
    · simp [ddgBranch3, jDictGet, hc, except_bind_ok, truthy, absCand, normalize_nil]
    · simp [urlFieldOK, truthy] at h
  · rw [hc] at h
    cases kvs2
    · simp [ddgBranch3, jDictGet, hc, except_bind_ok, truthy, absCand, normalize_nil]
    · simp [urlFieldOK, truthy] at h

theorem ddgBranch2_ok (kvs : List (String × Json))
    (h1 : (rtItems kvs).all itemOK = true)
    (h2 : urlFieldOK (pyGetObj kvs "AbstractImage") = true) :
    ddgBranch2 (Json.obj kvs)
      = .ok (normalize_image_url
          (((rtItems kvs).flatMap entryCands ++ (absCand kvs).toList).headD [])) := by
  have hrt : rtItems kvs = (match pyOr (pyGetObj kvs "RelatedTopics") (Json.arr []) with
      | .arr items => items
      | _ => []) := rfl
  rcases hr : pyOr (pyGetObj kvs "RelatedTopics") (Json.arr []) with _ | b | i | v | items | kvs2
  · rw [hr] at hrt
    have hstep : ddgBranch2 (Json.obj kvs) = ddgBranch3 (Json.obj kvs) := by
      simp [ddgBranch2, jDictGet, hr, except_bind_ok]
    rw [hstep, ddgBranch3_ok kvs h2, hrt]
    cases absCand kvs <;> rfl
  · rw [hr] at hrt
    have hstep : ddgBranch2 (Json.obj kvs) = ddgBranch3 (Json.obj kvs) := by
      simp [ddgBranch2, jDictGet, hr, except_bind_ok]
    rw [hstep, ddgBranch3_ok kvs h2, hrt]
    cases absCand kvs <;> rfl
  · rw [hr] at hrt
    have hstep : ddgBranch2 (Json.obj kvs) = ddgBranch3 (Json.obj kvs) := by
      simp [ddgBranch2, jDictGet, hr, except_bind_ok]
    rw [hstep, ddgBranch3_ok kvs h2, hrt]
    cases absCand kvs <;> rfl
  · rw [hr] at hrt
    have hstep : ddgBranch2 (Json.obj kvs) = ddgBranch3 (Json.obj kvs) := by
      simp [ddgBranch2, jDictGet, hr, except_bind_ok]
    rw [hstep, ddgBranch3_ok kvs h2, hrt]
    cases absCand kvs <;> rfl
  · rw [hr] at hrt
    have h1' : items.all itemOK = true := by
      rw [hrt] at h1
      exact h1
    have hscan := scanItems_ok items h1'
    rcases hh : (items.flatMap entryCands).head? with _ | v
    · have hflat : items.flatMap entryCands = [] := by
        rwa [← List.head?_eq_none_iff]
      rw [hh] at hscan
      have hstep : ddgBranch2 (Json.obj kvs) = ddgBranch3 (Json.obj kvs) := by
        simp [ddgBranch2, jDictGet, hr, hscan, except_bind_ok]
      rw [hstep, ddgBranch3_ok kvs h2, hrt, hflat]
      cases absCand kvs <;> rfl
    · rw [hh] at hscan
      have hstep : ddgBranch2 (Json.obj kvs) = .ok (normalize_image_url v) := by
        simp [ddgBranch2, jDictGet, hr, hscan, except_bind_ok]
      rw [hstep, hrt]
      rcases hflat : items.flatMap entryCands with _ | ⟨w, ws⟩
      · rw [hflat] at hh
        simp at hh
      · rw [hflat] at hh
        have hw : w = v := by simpa using hh
        subst hw
        rfl
  · rw [hr] at hrt
    have hstep : ddgBranch2 (Json.obj kvs) = ddgBranch3 (Json.obj kvs) := by
      simp [ddgBranch2, jDictGet, hr, except_bind_ok]
    rw [hstep, ddgBranch3_ok kvs h2, hrt]
    cases absCand kvs <;> rfl

/-- C5 (amended): on every body the unguarded extraction code does not raise on
(`WellShaped`: truthy icons are objects, their truthy URL values and a truthy
`AbstractImage` are strings), the extraction returns exactly the normalized
form of the first candidate in the claim's priority order — the top-level
image field (under casings `Image` then `image`, when a non-BLANK string), then
the first non-blank icon URL of the related-topics scan (direct icons first,
then nested `Topics` entries, in input order), then a truthy `AbstractImage`,
and the empty string when no candidate exists.  On other bodies the code can
raise an uncaught exception instead of returning a string. -/
theorem ddg_extract_priority (j : Json) (h : WellShaped j = true) :
    ddgExtract j = .ok (normalize_image_url (firstCandidate j)) := by
  cases j with
  | obj kvs =>
    rw [show WellShaped (Json.obj kvs) = ((rtItems kvs).all itemOK &&
        urlFieldOK (pyGetObj kvs "AbstractImage")) from rfl, Bool.and_eq_true] at h
    obtain ⟨h1, h2⟩ := h
    have hstart : ddgExtract (Json.obj kvs)
        = (match topCand kvs with
           | some v => .ok (normalize_image_url v)
           | none => ddgBranch2 (Json.obj kvs)) := by
      simp [ddgExtract, jDictGet, except_bind_ok, strCandidate_eq_topCand]
    rcases htc : topCand kvs with _ | v
    · rw [hstart, htc, ddgBranch2_ok kvs h1 h2]
      have hfc : firstCandidate (Json.obj kvs)
          = ((rtItems kvs).flatMap entryCands ++ (absCand kvs).toList).headD [] := by
        simp [firstCandidate, candList, htc]
      rw [hfc]
    · rw [hstart, htc]
      have hfc : firstCandidate (Json.obj kvs) = v := by
        simp [firstCandidate, candList, htc]
      rw [hfc]
  | null => simp [WellShaped] at h
  | bool b => simp [WellShaped] at h
  | int i => simp [WellShaped] at h
  | str v => simp [WellShaped] at h
  | arr xs => simp [WellShaped] at h

theorem ddg_extract_priority_witness :
    WellShaped (Json.obj [("Image", Json.str "https://img.jpg?x=1".toList)]) = true ∧
    ddgExtract (Json.obj [("Image", Json.str "https://img.jpg?x=1".toList)])
      = .ok (normalize_image_url
          (firstCandidate (Json.obj [("Image", Json.str "https://img.jpg?x=1".toList)]))) :=
  ⟨by decide, ddg_extract_priority _ (by decide)⟩

/-- C5 counterexample: on the body `{"Image": " ", "AbstractImage":
"https://a.png"}` the code skips the blank (whitespace-only, hence truthy but
stripped-empty) top-level image field and returns the abstract image, while the
claim's literal priority — take the top-level image field whenever present —
yields the empty string (normalization rejects a bare space). -/
theorem ddg_priority_counterexample :
    ddgExtract (Json.obj [("Image", Json.str [' ']),
        ("AbstractImage", Json.str "https://a.png".toList)])
      = .ok "https://a.png".toList ∧
    specExtractLiteralC5 (Json.obj [("Image", Json.str [' ']),
        ("AbstractImage", Json.str "https://a.png".toList)]) = [] ∧
    "https://a.png".toList ≠ ([] : PyStr) :=
  ⟨rfl, rfl, by decide⟩

/-- C8 (amended): the related-topics scan stops at the first icon URL that is
non-blank as a raw string — non-empty after stripping whitespace, so an icon
URL that is non-empty but all-whitespace is skipped, not stopped at — and the
resolver returns that raw URL's normalized form even when normalization
rejects it and yields the empty string: concretely, on a body whose first icon
URL is `ftp://x` and whose second is `https://ok.png`, the resolver returns
the empty string although a later entry carries a valid http(s) icon URL. -/
theorem icon_scan_first_nonblank :
    (∀ items : List Json, items.all itemOK = true →
        scanItems items = .ok ((items.flatMap entryCands).head?)) ∧
    ddgExtract (Json.obj [("RelatedTopics", Json.arr
        [Json.obj [("Icon", Json.obj [("URL", Json.str "ftp://x".toList)])],
         Json.obj [("Icon", Json.obj [("URL", Json.str "https://ok.png".toList)])]])])
      = .ok [] ∧
    "https://ok.png".toList ∈
      ([Json.obj [("Icon", Json.obj [("URL", Json.str "ftp://x".toList)])],
        Json.obj [("Icon", Json.obj [("URL", Json.str "https://ok.png".toList)])]] :
          List Json).flatMap entryCands ∧
    normalize_image_url "https://ok.png".toList = "https://ok.png".toList :=
  ⟨fun items h => scanItems_ok items h, rfl, by decide, rfl⟩

theorem icon_scan_first_nonblank_witness :
    scanItems [Json.obj [("Icon", Json.obj [("URL", Json.str [' '])])],
        Json.obj [("Icon", Json.obj [("URL", Json.str "https://ok.png".toList)])]]
      = .ok (some "https://ok.png".toList) := by
  have h := icon_scan_first_nonblank.1
    [Json.obj [("Icon", Json.obj [("URL", Json.str [' '])])],
     Json.obj [("Icon", Json.obj [("URL", Json.str "https://ok.png".toList)])]] (by decide)
  rw [h]
  rfl

/-- C8 counterexample: the scan does NOT stop at the first icon URL that is
non-empty as a raw string.  A one-space URL is non-empty as a raw string, yet
the code skips it (its strip is empty) and returns the later valid icon,
where the claim's literal reading predicts the normalized one-space URL, the
empty string. -/
theorem icon_scan_raw_counterexample :
    ddgExtract (Json.obj [("RelatedTopics", Json.arr
        [Json.obj [("Icon", Json.obj [("URL", Json.str [' '])])],
         Json.obj [("Icon", Json.obj [("URL", Json.str "https://ok.png".toList)])]])])
      = .ok "https://ok.png".toList ∧
    c8LiteralScan
        [Json.obj [("Icon", Json.obj [("URL", Json.str [' '])])],
         Json.obj [("Icon", Json.obj [("URL", Json.str "https://ok.png".toList)])]] = [] ∧
    ([' '] : PyStr) ≠ [] ∧
    "https://ok.png".toList ≠ ([] : PyStr) :=
  ⟨rfl, rfl, by decide, by decide⟩
